import Mathlib

/-!
Verification of the FRET WCET/WCRT fuzzer core against its
natural-language specification.

This file gives a shallow embedding, in Lean 4, of the parts of the
FRET source that the specification claims talk about:

* `src/systemstate/helpers.rs` — interrupt-time decoding
  (`input_bytes_to_interrupt_times`) and encoding
  (`interrupt_times_to_input_bytes`);
* `src/systemstate/mutational.rs` — the serialization path of the
  interrupt-shift mutator (`InterruptShiftStage::perform`);
* `src/systemstate/stg.rs` — `STGNode` equality and
  `StgFeedback::update_stg_interval`;
* `src/systemstate/report.rs` — the corpus pruning pass in
  `SchedulerStatsStage::perform`;
* `src/systemstate/target_os/freertos/mod.rs` — `RefinedTCB` and
  `FreeRTOSSystemState` equality/hash structure;
* `src/systemstate/target_os/freertos/qemu_module.rs` —
  `states2intervals` privilege levels and
  `get_release_response_pairs`;
* `src/time/clock.rs` — `QemuClockObserver`.

Machine integers are modelled as `Nat`; `u32`/`u64` subtraction in the
source only occurs where the source guarantees no underflow (or where
the claims evaluate it on concrete non-underflowing inputs), and is
modelled by truncated `Nat` subtraction.  Rust `HashMap`s that are only
accessed through `contains_key` / `get` / `insert` / `remove` are
modelled as association lists; iteration order over such maps is never
relevant to the embedded code paths.  Hash functions
(`DefaultHasher`-based `compute_hash` / `get_hash`) are taken as
arbitrary function parameters: every theorem proved over all hash
functions in particular covers the concrete SipHash used by the code.
-/

namespace FRET

/-! ## Constants (src/fuzzer.rs, src/time/clock.rs) -/

/-- `pub const FIRST_INT : u32 = 200000;` (fuzzer.rs line 55). -/
def FIRST_INT : Nat := 200000

/-- `pub const MAX_NUM_INTERRUPT: usize = 128;` (fuzzer.rs line 57). -/
def MAX_NUM_INTERRUPT : Nat := 128

/-- `pub const DO_NUM_INTERRUPT: usize = 128;` (fuzzer.rs line 59). -/
def DO_NUM_INTERRUPT : Nat := 128

/-- `QEMU_ICOUNT_SHIFT = 5` (clock.rs line 30). -/
def QEMU_ICOUNT_SHIFT : Nat := 5

/-- `QEMU_ISNS_PER_SEC = 10^9 / 2^5 = 31250000` (clock.rs line 31). -/
def QEMU_ISNS_PER_SEC : Nat := 10 ^ 9 / 2 ^ QEMU_ICOUNT_SHIFT

/-- `_QEMU_NS_PER_ISN = 1 << 5 = 32` nanoseconds per instruction (clock.rs line 34). -/
def QEMU_NS_PER_ISN : Nat := 2 ^ QEMU_ICOUNT_SHIFT

/-- `tick_to_time(ticks) = Duration::from_nanos(ticks * 32)` (clock.rs line 43),
viewed in nanoseconds. -/
def tick_to_time_ns (ticks : Nat) : Nat := ticks * QEMU_NS_PER_ISN

/-- `tick_to_time(ticks).as_micros()`: `Duration::as_micros` is the total
number of whole microseconds, i.e. nanoseconds divided by 1000 (floor). -/
def tick_to_time_us (ticks : Nat) : Nat := tick_to_time_ns ticks / 1000

/-! ## Interrupt time decoding and encoding (src/systemstate/helpers.rs)

`input_bytes_to_interrupt_times(buf, config)` reads little-endian `u32`
values out of `buf` (at most `DO_NUM_INTERRUPT` of them, stopping at the
first incomplete 4-byte group), coerces every tick below `FIRST_INT` to
0, sorts, and then walks the sorted vector enforcing the minimum
inter-arrival time: whenever the direct successor of a non-zero entry is
closer than the threshold, the successor is zeroed and the vector is
re-sorted.  The Rust threshold is `(config.1 as f32 * QEMU_ISNS_PER_USEC) as u32`;
we model it as an arbitrary natural number `t` (the theorems below hold
for every value of `t`, in particular for the value the `f32`
computation produces; for `config.1 = 1000` µs that value is exactly
`31250`). -/

/-- `u32::from_le_bytes([b0,b1,b2,b3])`. -/
def u32_from_le_bytes (b0 b1 b2 b3 : Nat) : Nat :=
  b0 + 2 ^ 8 * b1 + 2 ^ 16 * b2 + 2 ^ 24 * b3

/-- `u32::to_le_bytes`. -/
def u32_to_le_bytes (n : Nat) : List Nat :=
  [n % 2 ^ 8, n / 2 ^ 8 % 2 ^ 8, n / 2 ^ 16 % 2 ^ 8, n / 2 ^ 24 % 2 ^ 8]

/-- The read loop of `input_bytes_to_interrupt_times` (helpers.rs lines
163-177): for `i` counting up (fuel counts the remaining iterations out
of `DO_NUM_INTERRUPT`), read 4 little-endian bytes while available,
coercing ticks below `FIRST_INT` to 0; `break` on the first incomplete
group. -/
def read_interrupt_ticks (buf : List Nat) : Nat → Nat → List Nat
  | _, 0 => []
  | i, fuel + 1 =>
    if (i + 1) * 4 ≤ buf.length then
      (let start_tick := u32_from_le_bytes (buf.getD (i * 4) 0) (buf.getD (i * 4 + 1) 0)
          (buf.getD (i * 4 + 2) 0) (buf.getD (i * 4 + 3) 0)
       if start_tick < FIRST_INT then 0 else start_tick) :: read_interrupt_ticks buf (i + 1) fuel
    else []

/-- The same read loop without the `FIRST_INT` coercion: the raw `u32`
sequence a byte buffer encodes.  Used to talk about what an emitted
`isr_i_times` part contains. -/
def read_raw_u32s (buf : List Nat) : Nat → Nat → List Nat
  | _, 0 => []
  | i, fuel + 1 =>
    if (i + 1) * 4 ≤ buf.length then
      u32_from_le_bytes (buf.getD (i * 4) 0) (buf.getD (i * 4 + 1) 0)
          (buf.getD (i * 4 + 2) 0) (buf.getD (i * 4 + 3) 0) :: read_raw_u32s buf (i + 1) fuel
    else []

/-- The `u32` sequence encoded by an `isr_i_times` part (at most
`DO_NUM_INTERRUPT` entries, as read by the decoder). -/
def bytes_to_raw_u32s (buf : List Nat) : List Nat :=
  read_raw_u32s buf 0 DO_NUM_INTERRUPT

/-- `ret.sort_unstable()` on a `Vec<u32>`: sorting by `≤`.  (Any correct
sort of naturals produces the same list, so the choice of algorithm is
immaterial.) -/
def sort_ticks (l : List Nat) : List Nat := List.insertionSort (· ≤ ·) l

/-- One iteration `i` of the min-inter-arrival-time loop (helpers.rs
lines 180-194).  The inner `for j in i+1..ret.len()` executes at most
once, because both branches of its body `break`; so the iteration reads
`ret[i]`, skips if it is zero, otherwise compares with `ret[i+1]` (when
present), zeroing it and re-sorting when the gap is below the
threshold `t`. -/
def min_iat_step (t : Nat) (ret : List Nat) (i : Nat) : List Nat :=
  if ret.getD i 0 = 0 then ret
  else if i + 1 < ret.length then
    if ret.getD (i + 1) 0 - ret.getD i 0 < t then sort_ticks (ret.set (i + 1) 0)
    else ret
  else ret

/-- The outer loop `for i in 0..ret.len()` of the min-iat enforcement;
`fuel` is the number of remaining iterations (the length of the original
vector, which every step preserves). -/
def min_iat_loop (t : Nat) : List Nat → Nat → Nat → List Nat
  | ret, _, 0 => ret
  | ret, i, fuel + 1 => min_iat_loop t (min_iat_step t ret i) (i + 1) fuel

/-- `input_bytes_to_interrupt_times(buf, config)` (helpers.rs lines
159-196), with the tick threshold `(config.1 as f32 * QEMU_ISNS_PER_USEC) as u32`
abstracted as `t`. -/
def input_bytes_to_interrupt_times (buf : List Nat) (t : Nat) : List Nat :=
  let ret := sort_ticks (read_interrupt_ticks buf 0 DO_NUM_INTERRUPT)
  min_iat_loop t ret 0 ret.length

/-- `interrupt_times_to_input_bytes` (helpers.rs lines 205-211): plain
little-endian serialization, no sorting, no filtering. -/
def interrupt_times_to_input_bytes (interrupt_times : List Nat) : List Nat :=
  interrupt_times.foldl (fun ret i => ret ++ u32_to_le_bytes i) []

/-! ## The randomize branch of the interrupt-shift mutator
(src/systemstate/mutational.rs)

In `InterruptShiftStage::perform`, the fully-randomize branch (lines
204-212 with the `mutate_stg` feature, lines 380-388 without it) fills
`new_interrupt_times` with RNG draws `myrand.between(0, min(maxtick, u32::MAX))`,
the number of draws being `myrand.between(0, min(MAX_NUM_INTERRUPT,
(maxtick*3)/(min_iat * (QEMU_ISNS_PER_USEC as usize) * 2)))` (note
`QEMU_ISNS_PER_USEC as usize = 31`).  The part is then extended with
`interrupt_times_to_input_bytes(&new_interrupt_times)` (line 390) —
without any sorting or min-iat filtering in between.  The following
predicate characterises exactly the tick vectors this branch can emit. -/

def randomize_draws_ok (maxtick min_iat : Nat) (draws : List Nat) : Prop :=
  draws.length ≤ min MAX_NUM_INTERRUPT (maxtick * 3 / (min_iat * 31 * 2)) ∧
    ∀ x ∈ draws, x ≤ min maxtick (2 ^ 32 - 1)

instance (maxtick min_iat : Nat) (draws : List Nat) :
    Decidable (randomize_draws_ok maxtick min_iat draws) := by
  unfold randomize_draws_ok; infer_instance

/-! ## The clock observer (src/time/clock.rs) -/

/-- `libafl::executors::ExitKind`, as consumed by the observer. -/
inductive ExitKind where
  | Ok
  | Crash
  | Oom
  | Timeout
deriving DecidableEq, Repr

/-- The tick fields of `QemuClockObserver` (clock.rs lines 107-114). -/
structure QemuClockObserver where
  start_tick : Nat
  end_tick : Nat
deriving DecidableEq, Repr

/-- `QemuClockObserver::last_runtime` (clock.rs lines 131-133):
`end_tick - start_tick`. -/
def QemuClockObserver.last_runtime (o : QemuClockObserver) : Nat :=
  o.end_tick - o.start_tick

/-- `QemuClockObserver::post_exec` (clock.rs lines 152-179): on any exit
kind other than `Ok`, zero both ticks and return; otherwise store the
emulator's instruction count (`icount_get_raw()` — or, under the
`trace_job_response_times` feature with a selected task, that task's
worst response time; either way an external value, passed here as
`icount`) into `end_tick`. -/
def QemuClockObserver.post_exec (o : QemuClockObserver) (exit_kind : ExitKind)
    (icount : Nat) : QemuClockObserver :=
  if exit_kind ≠ ExitKind.Ok then { start_tick := 0, end_tick := 0 }
  else { o with end_tick := icount }

/-! ## Atomic basic blocks and STG nodes (src/systemstate/mod.rs, src/systemstate/stg.rs) -/

/-- `AtomicBasicBlock` (mod.rs lines 120-127).  `ends` is a
`HashSet<GuestAddr>` in the source; we carry it as a list and compare it
with set semantics, exactly as `HashSet`'s `PartialEq` does. -/
structure AtomicBasicBlock where
  start : Nat
  ends : List Nat
  level : Nat
  instance_id : Nat
  instance_name : Option String
deriving DecidableEq, Repr

instance : Inhabited AtomicBasicBlock :=
  ⟨{ start := 0, ends := [], level := 0, instance_id := 0, instance_name := none }⟩

/-- `HashSet` equality: same elements. -/
def hashset_eq (a b : List Nat) : Bool :=
  a.all (fun x => b.contains x) && b.all (fun x => a.contains x)

/-- `impl PartialEq for AtomicBasicBlock` (mod.rs lines 129-133):
compares `start`, `ends` (as sets), `level` and `instance_name`;
`instance_id` is ignored. -/
def AtomicBasicBlock.rust_eq (a b : AtomicBasicBlock) : Bool :=
  a.start == b.start && hashset_eq a.ends b.ends && a.level == b.level &&
    a.instance_name == b.instance_name

/-- `STGNode` (stg.rs lines 57-68): a state hash paired with an ABB. -/
structure STGNode where
  state : Nat
  abb : AtomicBasicBlock
deriving DecidableEq, Repr

instance : Inhabited STGNode := ⟨{ state := 0, abb := default }⟩

/-- `impl PartialEq for STGNode` (stg.rs lines 98-105): the body is
`self.state == other.state` — the `abb` component is not compared. -/
def STGNode.rust_eq (a b : STGNode) : Bool :=
  a.state == b.state

/-! ## The refined FreeRTOS kernel state (src/systemstate/target_os/freertos/mod.rs)

The `do_hash_notify_state` / `do_hash_notify_value` features are off in
the configurations the spec describes (it calls the notification fields
"hash-excluded unless configured"); the feature-gated extra conjuncts
and hash fields are therefore omitted. -/

/-- `RefinedTCB` (freertos/mod.rs lines 310-318). -/
structure RefinedTCB where
  task_name : String
  priority : Nat
  base_priority : Nat
  mutexes_held : Nat
  notify_value : Nat
  notify_state : Nat
deriving DecidableEq, Repr

instance : Inhabited RefinedTCB :=
  ⟨{ task_name := "", priority := 0, base_priority := 0, mutexes_held := 0,
     notify_value := 0, notify_state := 0 }⟩

/-- `impl PartialEq for RefinedTCB` (freertos/mod.rs lines 320-331):
compares `task_name`, `priority` and `base_priority`. -/
def RefinedTCB.rust_eq (a b : RefinedTCB) : Bool :=
  a.task_name == b.task_name && a.priority == b.priority && a.base_priority == b.base_priority

/-- `impl Hash for RefinedTCB` (freertos/mod.rs lines 333-343): the
fields fed to the hasher, in order: `task_name`, `priority`,
`mutexes_held`.  Two values receive equal hashes (for every hasher) iff
these streams coincide. -/
def RefinedTCB.hash_stream (a : RefinedTCB) : String × Nat × Nat :=
  (a.task_name, a.priority, a.mutexes_held)

/-- Rust `Vec<RefinedTCB>` equality: same length, elementwise
`RefinedTCB` `PartialEq`. -/
def tcb_list_eq : List RefinedTCB → List RefinedTCB → Bool
  | [], [] => true
  | a :: as_, b :: bs => RefinedTCB.rust_eq a b && tcb_list_eq as_ bs
  | _, _ => false

/-- `FreeRTOSSystemState` (freertos/mod.rs lines 399-405). -/
structure FreeRTOSSystemState where
  current_task : RefinedTCB
  ready_list_after : List RefinedTCB
  delay_list_after : List RefinedTCB
  read_invalid : Bool
deriving DecidableEq, Repr

instance : Inhabited FreeRTOSSystemState :=
  ⟨{ current_task := default, ready_list_after := [], delay_list_after := [],
     read_invalid := false }⟩

/-- `impl PartialEq for FreeRTOSSystemState` (freertos/mod.rs lines
406-413). -/
def FreeRTOSSystemState.rust_eq (a b : FreeRTOSSystemState) : Bool :=
  RefinedTCB.rust_eq a.current_task b.current_task &&
    tcb_list_eq a.ready_list_after b.ready_list_after &&
    tcb_list_eq a.delay_list_after b.delay_list_after &&
    a.read_invalid == b.read_invalid

/-- `impl Hash for FreeRTOSSystemState` (freertos/mod.rs lines 415-422):
hashes `current_task`, both lists (elementwise via `RefinedTCB`'s
`Hash`), and `read_invalid`. -/
def FreeRTOSSystemState.hash_stream (a : FreeRTOSSystemState) :
    (String × Nat × Nat) × List (String × Nat × Nat) × List (String × Nat × Nat) × Bool :=
  (a.current_task.hash_stream, a.ready_list_after.map RefinedTCB.hash_stream,
   a.delay_list_after.map RefinedTCB.hash_stream, a.read_invalid)

/-! ## Association-list model of the `HashMap`s used by the embedded code

All embedded `HashMap` uses go through `contains_key` / `get` / `insert`
/ `remove` only, so an association list is an exact model. -/

/-- `HashMap::get`. -/
def alist_get? {α β : Type} [BEq α] : List (α × β) → α → Option β
  | [], _ => none
  | (k, v) :: rest, key => if k == key then some v else alist_get? rest key

/-- `HashMap::contains_key`. -/
def alist_contains {α β : Type} [BEq α] (m : List (α × β)) (key : α) : Bool :=
  (alist_get? m key).isSome

/-- `HashMap::insert` (replaces an existing binding). -/
def alist_insert {α β : Type} [BEq α] : List (α × β) → α → β → List (α × β)
  | [], key, v => [(key, v)]
  | (k, w) :: rest, key, v =>
    if k == key then (k, v) :: rest else (k, w) :: alist_insert rest key v

/-- `HashMap::remove` (dropping the returned value). -/
def alist_remove {α β : Type} [BEq α] : List (α × β) → α → List (α × β)
  | [], _ => []
  | (k, w) :: rest, key => if k == key then rest else (k, w) :: alist_remove rest key

/-! ## Capture events and execution intervals (src/systemstate/mod.rs) -/

/-- `CaptureEvent` (mod.rs lines 24-33). -/
inductive CaptureEvent where
  | APIStart
  | APIEnd
  | ISRStart
  | ISREnd
  | End
  | Undefined
deriving DecidableEq, Repr

instance : Inhabited CaptureEvent := ⟨CaptureEvent.Undefined⟩

/-- `ExecInterval` (mod.rs lines 54-70). -/
structure ExecInterval where
  start_tick : Nat
  end_tick : Nat
  start_state : Nat
  end_state : Nat
  start_capture : CaptureEvent × String
  end_capture : CaptureEvent × String
  level : Nat
  abb : Option AtomicBasicBlock
deriving DecidableEq, Repr

instance : Inhabited ExecInterval :=
  ⟨{ start_tick := 0, end_tick := 0, start_state := 0, end_state := 0,
     start_capture := (default, ""), end_capture := (default, ""), level := 0,
     abb := none }⟩

/-- `ExecInterval::get_exec_time` (mod.rs line 73): `end_tick - start_tick`. -/
def ExecInterval.get_exec_time (i : ExecInterval) : Nat := i.end_tick - i.start_tick

/-- `STGEdge::is_abb_end` (stg.rs lines 140-145). -/
def capture_is_abb_end : CaptureEvent → Bool
  | CaptureEvent.APIStart => true
  | CaptureEvent.APIEnd => true
  | CaptureEvent.ISREnd => true
  | CaptureEvent.End => true
  | _ => false

/-! ## The trace refiner's privilege levels
(src/systemstate/target_os/freertos/qemu_module.rs, `states2intervals`)

`states2intervals` (lines 592-695) walks the refined capture list and,
for every adjacent pair of captures, emits one `ExecInterval` whose
`level` is computed from the *starting* capture's event with an ISR
stack (`isr_stack`, back = most recent) and a per-task level map
(`level_of_task`).  The final `add_abb_info` call only fills in the
`abb` fields and the success flag; it does not touch the levels, and is
not embedded here. -/

/-- `FreeRTOSSystemStateContext` as used by `states2intervals`:
instruction count, capture point, transition edge and memory reads. -/
structure FreeRTOSSystemStateContext where
  qemu_tick : Nat
  capture_point : CaptureEvent × String
  edge : Nat × Nat
  mem_reads : List (Nat × Nat)
deriving Repr

instance : Inhabited FreeRTOSSystemStateContext :=
  ⟨{ qemu_tick := 0, capture_point := (default, ""), edge := (0, 0), mem_reads := [] }⟩

/-- Mutable loop state of `states2intervals`. -/
structure S2IState where
  isr_stack : List Nat
  level_of_task : List (String × Nat)
  last_hash : Nat
  table : List (Nat × FreeRTOSSystemState)
  ret : List ExecInterval
  reads : List (List (Nat × Nat))
  edges : List (Nat × Nat)

/-- The level computation of one iteration of `states2intervals`
(qemu_module.rs lines 617-673), returning the interval level together
with the updated ISR stack and task-level map.  The stack is kept with
its back at the head. -/
def s2i_level (event : CaptureEvent) (curr_name : String) (isr_stack : List Nat)
    (level_of_task : List (String × Nat)) : Nat × List Nat × List (String × Nat) :=
  match event with
  | CaptureEvent.APIEnd =>
    -- ensure the key exists, then set it to 0
    (0, isr_stack, alist_insert level_of_task curr_name 0)
  | CaptureEvent.APIStart =>
    -- ensure the key exists, then set it to 1
    (1, isr_stack, alist_insert level_of_task curr_name 1)
  | CaptureEvent.ISREnd =>
    let lot :=
      if alist_contains level_of_task curr_name then level_of_task
      else alist_insert level_of_task curr_name 0
    if 1 < isr_stack.length then
      -- nested ISR: pop, continue at the level below
      (isr_stack.tail.headD 0, isr_stack.tail, lot)
    else
      -- pop (possibly empty), fall back to the task's own level
      ((alist_get? lot curr_name).getD 0, isr_stack.tail, lot)
  | CaptureEvent.ISRStart =>
    match isr_stack with
    | l :: rest => (l + 1, (l + 1) :: l :: rest, level_of_task)
    | [] => (2, [2], level_of_task)
  | _ => (100, isr_stack, level_of_task)

/-- One iteration of the main loop of `states2intervals` (qemu_module.rs
lines 614-692): compute the level from capture `i`, register the hash of
state `i+1` in the table, and push the interval, its reads and its
classification edge. -/
def s2i_step (hash_state : FreeRTOSSystemState → Nat) (trace : List FreeRTOSSystemState)
    (meta : List FreeRTOSSystemStateContext) (i : Nat) (st : S2IState) : S2IState :=
  let curr_name := (trace.getD i default).current_task.task_name
  let (level, isr_stack, level_of_task) :=
    s2i_level (meta.getD i default).capture_point.1 curr_name st.isr_stack st.level_of_task
  let next_hash := hash_state (trace.getD (i + 1) default)
  let table :=
    if alist_contains st.table next_hash then st.table
    else alist_insert st.table next_hash (trace.getD (i + 1) default)
  { isr_stack := isr_stack
    level_of_task := level_of_task
    last_hash := next_hash
    table := table
    ret := st.ret ++
      [{ start_tick := (meta.getD i default).qemu_tick
         end_tick := (meta.getD (i + 1) default).qemu_tick
         start_state := st.last_hash
         end_state := next_hash
         start_capture := (meta.getD i default).capture_point
         end_capture := (meta.getD (i + 1) default).capture_point
         level := level
         abb := none }]
    reads := st.reads ++ [(meta.getD (i + 1) default).mem_reads]
    edges := st.edges ++ [((meta.getD i default).edge.2, (meta.getD (i + 1) default).edge.1)] }

/-- The loop `for i in 0..trace.len()-1`. -/
def s2i_loop (hash_state : FreeRTOSSystemState → Nat) (trace : List FreeRTOSSystemState)
    (meta : List FreeRTOSSystemStateContext) : Nat → Nat → S2IState → S2IState
  | _, 0, st => st
  | i, fuel + 1, st => s2i_loop hash_state trace meta (i + 1) fuel (s2i_step hash_state trace meta i st)

/-- `states2intervals` up to (and excluding) the `add_abb_info` call
(qemu_module.rs lines 601-692): the intervals (with their levels), the
per-interval reads, and the state table.  `compute_hash` is the
`hash_state` parameter. -/
def states2intervals_core (hash_state : FreeRTOSSystemState → Nat)
    (trace : List FreeRTOSSystemState) (meta : List FreeRTOSSystemStateContext) :
    List ExecInterval × List (List (Nat × Nat)) × List (Nat × FreeRTOSSystemState) :=
  match trace with
  | [] => ([], [], [])
  | t0 :: _ =>
    let last_hash := hash_state t0
    let st0 : S2IState :=
      { isr_stack := [], level_of_task := [], last_hash := last_hash,
        table := [(last_hash, t0)], ret := [], reads := [], edges := [] }
    let stF := s2i_loop hash_state trace meta 0 (trace.length - 1) st0
    (stF.ret, stF.reads, stF.table)

/-! ## Release-response pairing
(src/systemstate/target_os/freertos/qemu_module.rs, `get_release_response_pairs`,
lines 1079-1165) -/

/-- The inner `while let Some(peek_rel) = r.peek()` loop (lines
1090-1113): move releases into the `ready` map; a task already in
`ready` has its additional releases skipped (keeping the earliest) as
long as the next response lies strictly after the peeked release;
otherwise the loop breaks. -/
def fill_releases (ready : List (String × Nat)) :
    List (Nat × String) → List (Nat × String) → List (String × Nat) × List (Nat × String)
  | [], _ => (ready, [])
  | (rt, rn) :: rs, d =>
    if ¬ alist_contains ready rn then
      fill_releases (alist_insert ready rn rt) rs d
    else
      match d with
      | (dt, _) :: _ =>
        if rt < dt then fill_releases ready rs d else (ready, (rt, rn) :: rs)
      | [] => (ready, (rt, rn) :: rs)

/-- Processing of one response `(dt, dn)` (lines 1114-1159), given the
`ready` and `last_response` maps, the output vector and the error flag.
Returns the updated `(ready, last_response, ret, maybe_error)`.

In the branch where the task has no pending release but a last response
exists (lines 1142-1154), the source checks whether the response lies
more than 1000 µs after the last response, but the body of that check
is entirely commented out; the pair `(last_response, response)` is
pushed unconditionally. -/
def pair_consume (ready last_response : List (String × Nat))
    (ret : List (Nat × Nat × String)) (maybe_error : Bool) (dt : Nat) (dn : String) :
    List (String × Nat) × List (String × Nat) × List (Nat × Nat × String) × Bool :=
  if alist_contains ready dn then
    let rdy := (alist_get? ready dn).getD 0
    if dt ≤ rdy then
      match alist_get? last_response dn with
      | some lr =>
        -- tolerate pending notifications for 500us, flag beyond that
        let maybe_error :=
          if 500 < Nat.dist (tick_to_time_us dt) (tick_to_time_us lr) then true
          else maybe_error
        (ready, alist_insert last_response dn dt, ret ++ [(lr, dt, dn)], maybe_error)
      | none => (ready, last_response, ret, true)
    else
      (alist_remove ready dn, alist_insert last_response dn dt, ret ++ [(rdy, dt, dn)],
        maybe_error)
  else
    match alist_get? last_response dn with
    | some lr =>
      -- the `> 1000` µs window check here has an empty body in the source
      (ready, alist_insert last_response dn dt, ret ++ [(lr, dt, dn)], maybe_error)
    | none => (ready, last_response, ret, true)

/-- The outer `loop` (lines 1089-1164): fill releases, then consume the
next response; return when the responses are exhausted. -/
def pair_loop (ready last_response : List (String × Nat))
    (ret : List (Nat × Nat × String)) (maybe_error : Bool) (r : List (Nat × String)) :
    List (Nat × String) → List (Nat × Nat × String) × Bool
  | [] =>
    let (_, _) := fill_releases ready r []
    (ret, maybe_error)
  | (dt, dn) :: d' =>
    let (ready, r) := fill_releases ready r ((dt, dn) :: d')
    let (ready, last_response, ret, maybe_error) :=
      pair_consume ready last_response ret maybe_error dt dn
    pair_loop ready last_response ret maybe_error r d'

/-- `get_release_response_pairs(rel, resp)` (lines 1079-1165). -/
def get_release_response_pairs (rel resp : List (Nat × String)) :
    List (Nat × Nat × String) × Bool :=
  pair_loop [] [] [] false rel resp

/-! ## Corpus pruning (src/systemstate/report.rs, `SchedulerStatsStage::perform`,
lines 143-177)

Inputs, as read by the source: the corpus in id order with each
testcase's `exec_time` (an `Option<Duration>`, modelled in nanoseconds)
and whether it carries `IsFavoredMetadata`; the current corpus id
`currid`; the sorted, deduplicated list `v` of corpus ids appearing as
values of `TopRatedsMetadata` (`vc = v.len()`); and the global worst
observed time `wort = tick_to_time(worst tick)` (in nanoseconds). -/

/-- One corpus entry as seen by the pruning pass. -/
structure Testcase where
  id : Nat
  exec_time : Option Nat
  favored : Bool
deriving DecidableEq, Repr

/-- `Option<Duration>` ordering: `None` sorts before `Some`. -/
def opt_le : Option Nat → Option Nat → Bool
  | none, _ => true
  | some _, none => false
  | some a, some b => a ≤ b

/-- The `filter_map` over corpus ids (report.rs lines 157-170), with the
`wort_preserved` flag threaded through.  The first testcase whose
`exec_time` equals `Some(wort)` (with `wort > 0`) is put *into* the
candidate list; all other testcases are exempted when `vc < 1000` and
they are favored, current, or listed in `v`, and are candidates
otherwise. -/
def prune_filter (wort vc : Nat) (currid : Option Nat) (v : List Nat) :
    Bool → List Testcase → List (Nat × Option Nat)
  | _, [] => []
  | wort_preserved, tc :: rest =>
    if ¬ wort_preserved ∧ tc.exec_time = some wort ∧ 0 < wort then
      -- "Keep the worst observed under all circumstances"
      (tc.id, tc.exec_time) :: prune_filter wort vc currid v true rest
    else if vc < 1000 ∧ (tc.favored = true ∨ currid = some tc.id ∨ tc.id ∈ v) then
      prune_filter wort vc currid v wort_preserved rest
    else
      (tc.id, tc.exec_time) :: prune_filter wort vc currid v wort_preserved rest

/-- Helper for `unique_keep_first`: skip elements already seen. -/
def unique_keep_first_aux (seen : List (Nat × Option Nat)) :
    List (Nat × Option Nat) → List (Nat × Option Nat)
  | [] => []
  | x :: rest =>
    if x ∈ seen then unique_keep_first_aux seen rest
    else x :: unique_keep_first_aux (x :: seen) rest

/-- `itertools::unique()`: keep the first occurrence of each element. -/
def unique_keep_first (l : List (Nat × Option Nat)) : List (Nat × Option Nat) :=
  unique_keep_first_aux [] l

/-- The pruning pass (report.rs lines 143-177): when activated, sort the
candidates by `exec_time` (ascending, stable — `itertools::sorted_by_key`),
take the `corpus.count() - to_keep` smallest, and remove those ids from
the corpus (the re-sort by id, `unique()` and `rev()` only order the
removals).  Returns the corpus after removal. -/
def prune_pass (wort : Nat) (currid : Option Nat) (v : List Nat)
    (corpus : List Testcase) : List Testcase :=
  let vc := v.length
  let cc := corpus.length
  let to_keep := max (vc * 10) 100
  if 1000 < cc ∨ max (vc * 20) 200 < cc then
    let cands := prune_filter wort vc currid v false corpus
    let ids := (List.insertionSort (fun a b => opt_le a.2 b.2 = true) cands).take (cc - to_keep)
    let ids := List.insertionSort (fun a b : Nat × Option Nat => a.1 ≤ b.1) ids
    let ids := (unique_keep_first ids).reverse
    corpus.filter (fun tc => ¬ ids.any (fun p => p.1 == tc.id))
  else corpus

/-! ## The STG update walk (src/systemstate/stg.rs, `StgFeedback::update_stg_interval`,
lines 501-575)

`petgraph::DiGraph` is modelled by its arenas: the node list and the
edge list `(source, target, weight)`, both indexed by position;
`add_node` / `add_edge` append.  `edges_directed(n, Outgoing).find(...)`
iterates a node's outgoing edges newest-first, so the edge lookup below
searches the edge arena from the back.  The hash functions
`compute_hash` (on system states), `STGNode::get_hash` and
`AtomicBasicBlock::get_hash` are arbitrary parameters `hash_state`,
`hash_node`, `hash_abb`.  `interval.abb.as_ref().unwrap()` panics in the
source when `abb` is `None`; the embedding uses the default ABB /
`usize::MAX` instance key there (the code never reaches that case on
refined traces, and no theorem below depends on it). -/

/-- `STGEdge` (stg.rs lines 107-113). -/
structure STGEdge where
  event : CaptureEvent
  name : String
  worst : Option (Nat × List (Nat × Nat))
deriving DecidableEq, Repr

instance : Inhabited STGEdge := ⟨{ event := default, name := "", worst := none }⟩

/-- The two arenas of a `petgraph::DiGraph<STGNode, STGEdge>`. -/
structure DiGraph where
  nodes : List STGNode
  edges : List (Nat × Nat × STGEdge)
deriving DecidableEq, Repr

/-- The graph-related fields of `STGFeedbackState` (stg.rs lines 156-179). -/
structure STGFeedbackState where
  graph : DiGraph
  systemstate_index : List (Nat × FreeRTOSSystemState)
  state_abb_hash_index : List ((Nat × Nat) × Nat)
  stgnode_index : List (Nat × Nat)
  entrypoint : Nat
  exitpoint : Nat

/-- `usize::MAX`, the sentinel key for intervals without an ABB in
`execinterval_to_abb_instances`. -/
def usize_max : Nat := 2 ^ 64 - 1

/-- The instance key of an interval: `abb.instance_id`, or the
`usize::MAX` sentinel when the interval has no ABB. -/
def abb_instance_key (interval : ExecInterval) : Nat :=
  (interval.abb.map (fun a => a.instance_id)).getD usize_max

/-- `execinterval_to_abb_instances` (stg.rs lines 459-477): per ABB
instance id, the summed execution time and the concatenated memory
accesses.  `trace` and `read_trace` are walked in lockstep. -/
def execinterval_to_abb_instances :
    List (ExecInterval × List (Nat × Nat)) → List (Nat × Nat × List (Nat × Nat)) →
      List (Nat × Nat × List (Nat × Nat))
  | [], m => m
  | (interval, reads) :: rest, m =>
    let temp := abb_instance_key interval
    match alist_get? m temp with
    | some x =>
      execinterval_to_abb_instances rest
        (alist_insert m temp (x.1 + interval.get_exec_time, x.2 ++ reads))
    | none =>
      if temp ≠ usize_max then
        execinterval_to_abb_instances rest
          (alist_insert m temp (interval.get_exec_time, reads))
      else execinterval_to_abb_instances rest m

/-- `edges_directed(src, Outgoing).find(|x| target(x) == dst)`:
the most recently added edge `src → dst`, as an edge index. -/
def find_outgoing_edge (g : DiGraph) (src dst : Nat) : Option Nat :=
  (g.edges.enum.reverse.find? (fun p => p.2.1 == src && p.2.2.1 == dst)).map (fun p => p.1)

/-- Modify the element at one index of a list, leaving the rest alone. -/
def modify_idx {α : Type} (f : α → α) : Nat → List α → List α
  | _, [] => []
  | 0, a :: l => f a :: l
  | n + 1, a :: l => a :: modify_idx f n l

/-- The in-place update of an edge's `worst` record (stg.rs lines
536-547): an existing record `(w, b)` is replaced by `(time, accesses)`
only when `w < time`; a missing record is filled in. -/
def update_worst (w : Option (Nat × List (Nat × Nat))) (time : Nat)
    (accesses : List (Nat × Nat)) : Option (Nat × List (Nat × Nat)) :=
  match w with
  | some p => if p.1 < time then some (time, accesses) else some p
  | none => some (time, accesses)

/-- `STGFeedbackState` plus the traversal accumulators of
`update_stg_interval`. -/
structure WalkAcc where
  fbs : STGFeedbackState
  node_trace : List (Nat × Nat)
  edge_trace : List (Nat × Nat)
  interesting : Bool
  updated : Bool

/-- With the `feed_stg` feature: a new node is interesting. -/
def INTEREST_NODE : Bool := true

/-- With the `feed_stg` feature: a new edge is interesting. -/
def INTEREST_EDGE : Bool := true

/-- `INTEREST_EDGE_WEIGHT` is `true` under both cfg branches
(stg.rs lines 402 and 419). -/
def INTEREST_EDGE_WEIGHT : Bool := true

/-- The node-resolution phase of one walk step (stg.rs lines 512-531):
refine the interval's start state, register it in the state index, and
resolve the `(state, abb)` node in `stgnode_index`, inserting it (and
its two index entries) when unseen.  Returns
`(next_idx, fbs, interesting, updated)`; the edge arena is untouched. -/
def stg_node_phase (hash_state : FreeRTOSSystemState → Nat) (hash_node : STGNode → Nat)
    (hash_abb : AtomicBasicBlock → Nat) (table : List (Nat × FreeRTOSSystemState))
    (acc : WalkAcc) (interval : ExecInterval) : Nat × STGFeedbackState × Bool × Bool :=
  let start_s := (alist_get? table interval.start_state).getD default
  let start_h := hash_state start_s
  let fbs :=
    { acc.fbs with
      systemstate_index := alist_insert acc.fbs.systemstate_index start_h start_s }
  let node : STGNode := { state := start_h, abb := interval.abb.getD default }
  let h_node := hash_node node
  match alist_get? fbs.stgnode_index h_node with
  | some idx => (idx, fbs, acc.interesting, acc.updated)
  | none =>
    let h := (start_h, hash_abb node.abb)
    let idx := fbs.graph.nodes.length
    (idx,
      { fbs with
        graph := { fbs.graph with nodes := fbs.graph.nodes ++ [node] }
        stgnode_index := alist_insert fbs.stgnode_index h_node idx
        state_abb_hash_index := alist_insert fbs.state_abb_hash_index h idx },
      acc.interesting || INTEREST_NODE, true)

/-- The edge phase of one walk step (stg.rs lines 532-560): connect the
previously walked node to `next_idx`, either updating the existing
edge's worst record (only improving it) or inserting a fresh edge. -/
def stg_edge_phase (instance_time : List (Nat × Nat × List (Nat × Nat))) (acc : WalkAcc)
    (interval : ExecInterval) (np : Nat × STGFeedbackState × Bool × Bool) : WalkAcc :=
  let (next_idx, fbs, interesting, updated) := np
  let prev := ((acc.node_trace.getLastD (0, 0))).1
  match find_outgoing_edge fbs.graph prev next_idx with
  | some ei =>
    let edge_trace := acc.edge_trace ++ [(ei, interval.start_tick)]
    match alist_get? instance_time (abb_instance_key interval) with
    | some (time, accesses) =>
      let old_worst := ((fbs.graph.edges.getD ei default).2.2).worst
      let improved :=
        match old_worst with
        | some p => decide (p.1 < time)
        | none => false
      let fbs :=
        { fbs with
          graph :=
            { fbs.graph with
              edges := modify_idx
                (fun e => (e.1, e.2.1, { e.2.2 with worst := update_worst e.2.2.worst time accesses }))
                ei fbs.graph.edges } }
      { fbs := fbs
        node_trace := acc.node_trace ++ [(next_idx, interval.start_tick)]
        edge_trace := edge_trace
        interesting := interesting || (INTEREST_EDGE_WEIGHT && improved)
        updated := updated }
    | none =>
      { fbs := fbs
        node_trace := acc.node_trace ++ [(next_idx, interval.start_tick)]
        edge_trace := edge_trace
        interesting := interesting
        updated := updated }
  | none =>
    let e0 : STGEdge :=
      { event := interval.start_capture.1, name := interval.start_capture.2, worst := none }
    let e0 :=
      if capture_is_abb_end e0.event then
        match alist_get? instance_time (abb_instance_key interval) with
        | some (time, accesses) => { e0 with worst := some (time, accesses) }
        | none => e0
      else e0
    let ei := fbs.graph.edges.length
    { fbs :=
        { fbs with
          graph := { fbs.graph with edges := fbs.graph.edges ++ [(prev, next_idx, e0)] } }
      node_trace := acc.node_trace ++ [(next_idx, interval.start_tick)]
      edge_trace := acc.edge_trace ++ [(ei, interval.start_tick)]
      interesting := interesting || INTEREST_EDGE
      updated := true }

/-- One iteration of the walk over the trace (stg.rs lines 511-561):
the node phase followed by the edge phase. -/
def stg_walk_step (hash_state : FreeRTOSSystemState → Nat) (hash_node : STGNode → Nat)
    (hash_abb : AtomicBasicBlock → Nat) (table : List (Nat × FreeRTOSSystemState))
    (instance_time : List (Nat × Nat × List (Nat × Nat))) (acc : WalkAcc)
    (interval : ExecInterval) : WalkAcc :=
  stg_edge_phase instance_time acc interval
    (stg_node_phase hash_state hash_node hash_abb table acc interval)

/-- The closing step (stg.rs lines 562-573): if the last walked node has
no edge to the persistent exit node yet, add an `End` edge (carrying the
last interval's instance record as its worst); finally push the exit
node onto the node trace. -/
def stg_walk_finish (instance_time : List (Nat × Nat × List (Nat × Nat)))
    (last_interval : ExecInterval) (acc : WalkAcc) : WalkAcc :=
  let last := (acc.node_trace.getLastD (0, 0)).1
  let has_exit :=
    acc.fbs.graph.edges.any (fun e => e.1 == last && e.2.1 == acc.fbs.exitpoint)
  let acc :=
    if has_exit then acc
    else
      let e0 : STGEdge := { event := CaptureEvent.End, name := "End", worst := none }
      let e0 :=
        match alist_get? instance_time (abb_instance_key last_interval) with
        | some (time, accesses) => { e0 with worst := some (time, accesses) }
        | none => e0
      let ei := acc.fbs.graph.edges.length
      { acc with
        fbs :=
          { acc.fbs with
            graph :=
              { acc.fbs.graph with
                edges := acc.fbs.graph.edges ++ [(last, acc.fbs.exitpoint, e0)] } }
        edge_trace := acc.edge_trace ++ [(ei, last_interval.start_tick)]
        interesting := acc.interesting || INTEREST_EDGE
        updated := true }
  { acc with node_trace := acc.node_trace ++ [(acc.fbs.exitpoint, last_interval.start_tick)] }

/-- `StgFeedback::update_stg_interval` (stg.rs lines 501-575).  The
source returns `(node_trace, edge_trace, interesting, updated)` and
mutates `fbs` through `&mut`; the embedding returns the final `fbs` as
the `WalkAcc`'s field. -/
def update_stg_interval (hash_state : FreeRTOSSystemState → Nat)
    (hash_node : STGNode → Nat) (hash_abb : AtomicBasicBlock → Nat)
    (trace : List ExecInterval) (read_trace : List (List (Nat × Nat)))
    (table : List (Nat × FreeRTOSSystemState)) (fbs : STGFeedbackState) : WalkAcc :=
  let acc0 : WalkAcc :=
    { fbs := fbs, node_trace := [(fbs.entrypoint, 0)], edge_trace := [],
      interesting := false, updated := false }
  match trace with
  | [] => acc0
  | _ :: _ =>
    let instance_time := execinterval_to_abb_instances (trace.zip read_trace) []
    let acc := trace.foldl (stg_walk_step hash_state hash_node hash_abb table instance_time) acc0
    stg_walk_finish instance_time (trace.getLastD default) acc

/-! # Theorems -/

/-! ## Decode invariant machinery (for C2, and for C1's amended claim)

The min-iat loop's correctness argument: the loop walks the sorted
vector left to right; whenever it zeroes `ret[i+1]` and re-sorts, the
new vector is exactly `0 :: ret.eraseIdx (i+1)` — a zero is prepended
and every element up to position `i` shifts right by one, so the loop
index now points at the same element again and previously established
adjacent gaps are preserved. -/

theorem sort_ticks_perm (l : List Nat) : (sort_ticks l).Perm l :=
  List.perm_insertionSort _ l

theorem sorted_sort_ticks (l : List Nat) : (sort_ticks l).Sorted (· ≤ ·) :=
  List.sorted_insertionSort _ l

theorem length_sort_ticks (l : List Nat) : (sort_ticks l).length = l.length :=
  (sort_ticks_perm l).length_eq

theorem length_min_iat_step (t : Nat) (ret : List Nat) (i : Nat) :
    (min_iat_step t ret i).length = ret.length := by
  unfold min_iat_step
  split
  · rfl
  · split
    · split
      · rw [length_sort_ticks, List.length_set]
      · rfl
    · rfl

theorem length_min_iat_loop (t : Nat) :
    ∀ (fuel i : Nat) (ret : List Nat), (min_iat_loop t ret i fuel).length = ret.length
  | 0, _, _ => rfl
  | fuel + 1, i, ret => by
    simp only [min_iat_loop]
    rw [length_min_iat_loop t fuel (i + 1) _, length_min_iat_step]

/-- `getD` through `eraseIdx`: indices below the erased one are
unchanged, later ones shift down by one. -/
theorem getD_eraseIdx (l : List Nat) (i k : Nat) (hi : i < l.length) :
    (l.eraseIdx i).getD k 0 = if k < i then l.getD k 0 else l.getD (k + 1) 0 := by
  have hlen : (l.eraseIdx i).length = l.length - 1 := by
    rw [List.length_eraseIdx, if_pos hi]
  by_cases hk : k < (l.eraseIdx i).length
  · rw [List.getD_eq_getElem _ _ hk, List.getElem_eraseIdx]
    by_cases hki : k < i
    · rw [dif_pos hki, if_pos hki, List.getD_eq_getElem _ _ (by omega)]
    · rw [dif_neg hki, if_neg hki, List.getD_eq_getElem _ _ (by omega)]
  · have hki : ¬ k < i := by omega
    rw [if_neg hki, List.getD_eq_default _ _ (by omega), List.getD_eq_default _ _ (by omega)]

/-- Adjacent entries of a sorted list are ordered. -/
theorem sorted_getD_le (l : List Nat) (hs : l.Sorted (· ≤ ·)) (k : Nat)
    (h : k + 1 < l.length) : l.getD k 0 ≤ l.getD (k + 1) 0 := by
  rw [List.getD_eq_getElem _ _ (by omega), List.getD_eq_getElem _ _ h]
  exact List.pairwise_iff_getElem.mp hs k (k + 1) (by omega) h (by omega)

/-- In the shift case the re-sorted vector is `0 :: ret.eraseIdx (i+1)`. -/
theorem min_iat_step_eq_shift (t : Nat) (ret : List Nat) (i : Nat)
    (hs : ret.Sorted (· ≤ ·)) (h0 : ¬ ret.getD i 0 = 0) (hi : i + 1 < ret.length)
    (hgap : ret.getD (i + 1) 0 - ret.getD i 0 < t) :
    min_iat_step t ret i = 0 :: ret.eraseIdx (i + 1) := by
  have hset : ret.set (i + 1) 0 = ret.take (i + 1) ++ 0 :: ret.drop (i + 2) := by
    rw [List.set_eq_take_append_cons_drop, if_pos hi]
  have hsorted : (0 :: ret.eraseIdx (i + 1)).Sorted (· ≤ ·) := by
    rw [List.sorted_cons]
    exact ⟨fun b _ => Nat.zero_le b, hs.sublist (List.eraseIdx_sublist ret (i + 1))⟩
  have hperm : (sort_ticks (ret.set (i + 1) 0)).Perm (0 :: ret.eraseIdx (i + 1)) := by
    refine (sort_ticks_perm _).trans ?_
    rw [hset, List.eraseIdx_eq_take_drop_succ]
    exact List.perm_middle
  unfold min_iat_step
  rw [if_neg h0, if_pos hi, if_pos hgap]
  exact List.eq_of_perm_of_sorted hperm (sorted_sort_ticks _) hsorted

/-- The partial min-iat invariant: every adjacent pair fully below
index `i` with a non-zero left entry is separated by at least `t`. -/
def min_iat_ok (t : Nat) (l : List Nat) (i : Nat) : Prop :=
  ∀ k, k + 1 ≤ i → k + 1 < l.length → l.getD k 0 ≠ 0 →
    l.getD k 0 + t ≤ l.getD (k + 1) 0

/-- One loop iteration preserves sortedness and extends the invariant
from `i` to `i + 1`. -/
theorem min_iat_step_invariant (t : Nat) (ret : List Nat) (i : Nat)
    (hs : ret.Sorted (· ≤ ·)) (hok : min_iat_ok t ret i) :
    (min_iat_step t ret i).Sorted (· ≤ ·) ∧ min_iat_ok t (min_iat_step t ret i) (i + 1) := by
  by_cases h0 : ret.getD i 0 = 0
  · have hstep : min_iat_step t ret i = ret := by unfold min_iat_step; rw [if_pos h0]
    rw [hstep]
    refine ⟨hs, fun k hk hklen hknz => ?_⟩
    rcases Nat.lt_or_ge (k + 1) (i + 1) with hlt | hge
    · exact hok k (by omega) hklen hknz
    · have hki : k = i := by omega
      rw [hki] at hknz
      exact absurd h0 hknz
  · by_cases hi : i + 1 < ret.length
    · by_cases hgap : ret.getD (i + 1) 0 - ret.getD i 0 < t
      · -- zero the successor and re-sort
        have hstep := min_iat_step_eq_shift t ret i hs h0 hi hgap
        rw [hstep]
        have hlen' : (ret.eraseIdx (i + 1)).length = ret.length - 1 := by
          rw [List.length_eraseIdx, if_pos hi]
        constructor
        · rw [List.sorted_cons]
          exact ⟨fun b _ => Nat.zero_le b, hs.sublist (List.eraseIdx_sublist ret (i + 1))⟩
        · intro k hk hklen hknz
          match k with
          | 0 => exact absurd List.getD_cons_zero hknz
          | Nat.succ m =>
            simp only [List.length_cons] at hklen
            have e1 : (0 :: ret.eraseIdx (i + 1)).getD (m + 1) 0 = ret.getD m 0 := by
              rw [List.getD_cons_succ, getD_eraseIdx _ _ _ hi, if_pos (by omega)]
            have e2 : (0 :: ret.eraseIdx (i + 1)).getD (m + 1 + 1) 0 = ret.getD (m + 1) 0 := by
              rw [List.getD_cons_succ, getD_eraseIdx _ _ _ hi, if_pos (by omega)]
            rw [e1] at hknz
            rw [e1, e2]
            exact hok m (by omega) (by omega) hknz
      · -- gap already satisfied, nothing changes
        have hstep : min_iat_step t ret i = ret := by
          unfold min_iat_step; rw [if_neg h0, if_pos hi, if_neg hgap]
        rw [hstep]
        refine ⟨hs, fun k hk hklen hknz => ?_⟩
        rcases Nat.lt_or_ge (k + 1) (i + 1) with hlt | hge
        · exact hok k (by omega) hklen hknz
        · have hki : k = i := by omega
          subst hki
          have hle := sorted_getD_le ret hs k hklen
          omega
    · -- no successor, nothing changes
      have hstep : min_iat_step t ret i = ret := by
        unfold min_iat_step; rw [if_neg h0, if_neg hi]
      rw [hstep]
      refine ⟨hs, fun k hk hklen hknz => ?_⟩
      rcases Nat.lt_or_ge (k + 1) (i + 1) with hlt | hge
      · exact hok k (by omega) hklen hknz
      · have hki : k = i := by omega
        subst hki
        omega

/-- Running the loop extends the invariant by `fuel` positions. -/
theorem min_iat_loop_invariant (t : Nat) :
    ∀ (fuel i : Nat) (ret : List Nat), ret.Sorted (· ≤ ·) → min_iat_ok t ret i →
      (min_iat_loop t ret i fuel).Sorted (· ≤ ·) ∧
        min_iat_ok t (min_iat_loop t ret i fuel) (i + fuel)
  | 0, i, ret, hs, hok => by
    simp only [min_iat_loop]
    exact ⟨hs, by simpa using hok⟩
  | fuel + 1, i, ret, hs, hok => by
    simp only [min_iat_loop]
    have hstep := min_iat_step_invariant t ret i hs hok
    have hrec := min_iat_loop_invariant t fuel (i + 1) (min_iat_step t ret i) hstep.1 hstep.2
    refine ⟨hrec.1, ?_⟩
    have harith : i + 1 + fuel = i + (fuel + 1) := by omega
    rw [harith] at hrec
    exact hrec.2

/-- The full decode invariant: the decoded vector is sorted, and every
adjacent pair with a non-zero left entry is separated by at least the
threshold. -/
theorem decode_invariant (buf : List Nat) (t : Nat) :
    (input_bytes_to_interrupt_times buf t).Sorted (· ≤ ·) ∧
      min_iat_ok t (input_bytes_to_interrupt_times buf t)
        (input_bytes_to_interrupt_times buf t).length := by
  have hs := sorted_sort_ticks (read_interrupt_ticks buf 0 DO_NUM_INTERRUPT)
  have hok0 : min_iat_ok t (sort_ticks (read_interrupt_ticks buf 0 DO_NUM_INTERRUPT)) 0 :=
    fun k hk _ _ => by omega
  have h := min_iat_loop_invariant t
    (sort_ticks (read_interrupt_ticks buf 0 DO_NUM_INTERRUPT)).length 0
    (sort_ticks (read_interrupt_ticks buf 0 DO_NUM_INTERRUPT)) hs hok0
  have hlen := length_min_iat_loop t
    (sort_ticks (read_interrupt_ticks buf 0 DO_NUM_INTERRUPT)).length 0
    (sort_ticks (read_interrupt_ticks buf 0 DO_NUM_INTERRUPT))
  constructor
  · exact h.1
  · show min_iat_ok t
      (min_iat_loop t (sort_ticks (read_interrupt_ticks buf 0 DO_NUM_INTERRUPT)) 0
        (sort_ticks (read_interrupt_ticks buf 0 DO_NUM_INTERRUPT)).length)
      (min_iat_loop t (sort_ticks (read_interrupt_ticks buf 0 DO_NUM_INTERRUPT)) 0
        (sort_ticks (read_interrupt_ticks buf 0 DO_NUM_INTERRUPT)).length).length
    rw [hlen]
    simpa using h.2

/-! ## C2 — the decoded interrupt-time vector invariant -/

/-- C2: for every byte buffer and every interrupt configuration (the
tick threshold `t` stands for `min_iat * isns_per_usec` as the source
computes it), the vector returned by `input_bytes_to_interrupt_times`
is non-decreasing, and any two adjacent entries that are both non-zero
differ by at least `t`. -/
theorem C2_decoded_times_sorted_and_min_iat (buf : List Nat) (t : Nat) :
    (input_bytes_to_interrupt_times buf t).Sorted (· ≤ ·) ∧
      ∀ k, k + 1 < (input_bytes_to_interrupt_times buf t).length →
        (input_bytes_to_interrupt_times buf t).getD k 0 ≠ 0 →
        (input_bytes_to_interrupt_times buf t).getD (k + 1) 0 ≠ 0 →
        t ≤ (input_bytes_to_interrupt_times buf t).getD (k + 1) 0 -
            (input_bytes_to_interrupt_times buf t).getD k 0 := by
  obtain ⟨hs, hok⟩ := decode_invariant buf t
  refine ⟨hs, fun k hk hnz _ => ?_⟩
  have := hok k (by omega) hk hnz
  omega

/-- Witness for C2: decoding the part that encodes `[250000, 300000]`
with threshold 31250 keeps both ticks, and their gap is at least the
threshold. -/
theorem C2_decoded_times_sorted_and_min_iat_witness :
    (input_bytes_to_interrupt_times
        (interrupt_times_to_input_bytes [250000, 300000]) 31250).Sorted (· ≤ ·) ∧
      31250 ≤ (input_bytes_to_interrupt_times
          (interrupt_times_to_input_bytes [250000, 300000]) 31250).getD 1 0 -
        (input_bytes_to_interrupt_times
          (interrupt_times_to_input_bytes [250000, 300000]) 31250).getD 0 0 :=
  ⟨(C2_decoded_times_sorted_and_min_iat (interrupt_times_to_input_bytes [250000, 300000])
      31250).1,
   (C2_decoded_times_sorted_and_min_iat (interrupt_times_to_input_bytes [250000, 300000])
      31250).2 0 (by decide) (by decide) (by decide)⟩

/-! ## C1 — what the interrupt-shift mutator writes into the part -/

/-- C1 counterexample: the claim says every submitted `isr_i_times` part
encodes a sorted, min-iat-filtered tick vector, the mutator sorting and
filtering before serializing.  But the fully-randomize branch emits its
RNG draws as-is: the draws `[300000, 250000]` are possible (here with
`maxtick = 400000`, min-iat 1000 µs), and the part they produce encodes
the raw `u32` sequence `[300000, 250000]`, which is not sorted (both
values are at least `FIRST_INT`, so neither is subject to coercion). -/
theorem C1_mutator_part_unsorted_counterexample :
    randomize_draws_ok 400000 1000 [300000, 250000] ∧
      bytes_to_raw_u32s (interrupt_times_to_input_bytes [300000, 250000]) =
        [300000, 250000] ∧
      ¬ (bytes_to_raw_u32s
          (interrupt_times_to_input_bytes [300000, 250000])).Sorted (· ≤ ·) := by
  refine ⟨by decide, by decide, ?_⟩
  intro h
  have := List.pairwise_iff_getElem.mp h 0 1 (by decide) (by decide) (by decide)
  revert this
  decide

/-- C1 amended: the mutator serializes the new tick vector as-is
(`interrupt_times_to_input_bytes` performs no sorting or filtering), so
the emitted part need not encode a sorted or min-iat-filtered sequence;
the invariant is instead (re-)established whenever a part is decoded:
for every emitted tick vector and every threshold, decoding the emitted
part yields a sorted vector whose adjacent non-zero entries are at
least the threshold apart. -/
theorem C1_decode_of_emitted_part_sorted_and_min_iat (ts : List Nat) (t : Nat) :
    (input_bytes_to_interrupt_times (interrupt_times_to_input_bytes ts) t).Sorted (· ≤ ·) ∧
      ∀ k, k + 1 <
          (input_bytes_to_interrupt_times (interrupt_times_to_input_bytes ts) t).length →
        (input_bytes_to_interrupt_times (interrupt_times_to_input_bytes ts) t).getD k 0 ≠ 0 →
        (input_bytes_to_interrupt_times (interrupt_times_to_input_bytes ts) t).getD k 0 + t ≤
          (input_bytes_to_interrupt_times (interrupt_times_to_input_bytes ts) t).getD
            (k + 1) 0 := by
  obtain ⟨hs, hok⟩ := decode_invariant (interrupt_times_to_input_bytes ts) t
  exact ⟨hs, fun k hk hnz => hok k (by omega) hk hnz⟩

/-- Witness for C1's amended claim at a concrete emitted vector. -/
theorem C1_decode_of_emitted_part_sorted_and_min_iat_witness :
    (input_bytes_to_interrupt_times
        (interrupt_times_to_input_bytes [250000, 300000]) 31250).Sorted (· ≤ ·) ∧
      (input_bytes_to_interrupt_times
          (interrupt_times_to_input_bytes [250000, 300000]) 31250).getD 0 0 + 31250 ≤
        (input_bytes_to_interrupt_times
          (interrupt_times_to_input_bytes [250000, 300000]) 31250).getD 1 0 :=
  ⟨(C1_decode_of_emitted_part_sorted_and_min_iat [250000, 300000] 31250).1,
   (C1_decode_of_emitted_part_sorted_and_min_iat [250000, 300000] 31250).2 0 (by decide)
     (by decide)⟩

/-! ## C10 — clock observer error handling -/

/-- C10: for every execution whose exit kind is not `Ok` (`Crash` as
well as `Timeout`), `QemuClockObserver::post_exec` resets both the start
and the end tick to zero, so `last_runtime()` returns 0 and the run
contributes no timing data; conversely a non-zero `last_runtime` after
`post_exec` can only come from an `Ok` (breakpoint) exit. -/
theorem C10_clock_post_exec_resets_on_non_ok (o : QemuClockObserver) (ek : ExitKind)
    (ic : Nat) :
    (ek ≠ ExitKind.Ok →
      (o.post_exec ek ic).start_tick = 0 ∧ (o.post_exec ek ic).end_tick = 0 ∧
        (o.post_exec ek ic).last_runtime = 0) ∧
    ((o.post_exec ek ic).last_runtime ≠ 0 → ek = ExitKind.Ok) := by
  constructor
  · intro h
    simp [QemuClockObserver.post_exec, QemuClockObserver.last_runtime, h]
  · intro h
    by_contra hek
    simp [QemuClockObserver.post_exec, QemuClockObserver.last_runtime, hek] at h

/-- Witness for C10 at a concrete crashed run. -/
theorem C10_clock_post_exec_resets_on_non_ok_witness :
    (QemuClockObserver.post_exec ⟨3, 5⟩ ExitKind.Crash 7).start_tick = 0 ∧
      (QemuClockObserver.post_exec ⟨3, 5⟩ ExitKind.Crash 7).end_tick = 0 ∧
      (QemuClockObserver.post_exec ⟨3, 5⟩ ExitKind.Crash 7).last_runtime = 0 :=
  (C10_clock_post_exec_resets_on_non_ok ⟨3, 5⟩ ExitKind.Crash 7).1 (by decide)

/-! ## C6 — STG node equality -/

/-- Two ABBs with different entry addresses (and exits, levels, names). -/
def c6_abb1 : AtomicBasicBlock := ⟨0x100, [0x200], 1, 0, some "foo"⟩

/-- A second, structurally different ABB. -/
def c6_abb2 : AtomicBasicBlock := ⟨0x300, [0x400], 2, 1, some "tick"⟩

/-- C6 counterexample: the claim says two STG nodes are equal iff their
state-hash components are equal *and* their ABB components are equal.
The nodes `⟨42, c6_abb1⟩` and `⟨42, c6_abb2⟩` compare equal under the
source's `PartialEq` (which only compares `state`) although their ABB
components differ in every field, so the "only if" direction fails. -/
theorem C6_node_eq_counterexample :
    STGNode.rust_eq ⟨42, c6_abb1⟩ ⟨42, c6_abb2⟩ = true ∧
      ¬ ((STGNode.state ⟨42, c6_abb1⟩ = STGNode.state ⟨42, c6_abb2⟩) ∧
          AtomicBasicBlock.rust_eq c6_abb1 c6_abb2 = true) := by
  decide

/-- C6 amended: for all STG nodes `m` and `n`, `m == n` holds iff their
state-hash components are equal; the ABB component is ignored by the
`PartialEq` implementation. -/
theorem C6_node_eq_state_only (m n : STGNode) :
    STGNode.rust_eq m n = true ↔ m.state = n.state := by
  simp [STGNode.rust_eq]

/-! ## C5 — refined kernel state equality vs hashing -/

/-- A TCB holding no mutex. -/
def c5_tcb_a : RefinedTCB := ⟨"TaskA", 2, 1, 0, 0, 0⟩

/-- The same TCB but holding one mutex. -/
def c5_tcb_b : RefinedTCB := ⟨"TaskA", 2, 1, 1, 0, 0⟩

/-- A refined state built from `c5_tcb_a`. -/
def c5_state_a : FreeRTOSSystemState := ⟨c5_tcb_a, [], [], false⟩

/-- A refined state built from `c5_tcb_b`. -/
def c5_state_b : FreeRTOSSystemState := ⟨c5_tcb_b, [], [], false⟩

/-- C5 counterexample: the claim says equality and hash of the refined
kernel state are structural over the *same* fields, so `a == b` implies
`hash(a) == hash(b)`.  But `RefinedTCB`'s `PartialEq` compares
`(task_name, priority, base_priority)` while its `Hash` feeds
`(task_name, priority, mutexes_held)` to the hasher: two states whose
current tasks differ only in `mutexes_held` are equal yet feed different
streams to the hasher. -/
theorem C5_eq_hash_counterexample :
    FreeRTOSSystemState.rust_eq c5_state_a c5_state_b = true ∧
      FreeRTOSSystemState.hash_stream c5_state_a ≠ FreeRTOSSystemState.hash_stream c5_state_b := by
  decide

/-- The `mutexes_held` projection of a refined state (current task and
both lists). -/
def FreeRTOSSystemState.mutex_proj (a : FreeRTOSSystemState) : Nat × List Nat × List Nat :=
  (a.current_task.mutexes_held, a.ready_list_after.map RefinedTCB.mutexes_held,
    a.delay_list_after.map RefinedTCB.mutexes_held)

/-- TCB equality plus agreement on `mutexes_held` forces equal hash
streams. -/
theorem tcb_eq_and_mutex_imp_hash (a b : RefinedTCB)
    (h : RefinedTCB.rust_eq a b = true) (hm : a.mutexes_held = b.mutexes_held) :
    a.hash_stream = b.hash_stream := by
  simp only [RefinedTCB.rust_eq, Bool.and_eq_true, beq_iff_eq] at h
  simp [RefinedTCB.hash_stream, h.1.1, h.1.2, hm]

/-- Listwise version of `tcb_eq_and_mutex_imp_hash`. -/
theorem tcb_list_eq_and_mutex_imp_hash :
    ∀ (l₁ l₂ : List RefinedTCB), tcb_list_eq l₁ l₂ = true →
      l₁.map RefinedTCB.mutexes_held = l₂.map RefinedTCB.mutexes_held →
      l₁.map RefinedTCB.hash_stream = l₂.map RefinedTCB.hash_stream
  | [], [], _, _ => rfl
  | a :: as_, b :: bs, h, hm => by
    simp only [tcb_list_eq, Bool.and_eq_true] at h
    simp only [List.map_cons, List.cons.injEq] at hm ⊢
    exact ⟨tcb_eq_and_mutex_imp_hash a b h.1 hm.1, tcb_list_eq_and_mutex_imp_hash as_ bs h.2 hm.2⟩

/-- C5 amended: equality compares the TCB fields `(task_name, priority,
base_priority)` (plus ready list, delay list, `read_invalid`) while the
hash covers `(task_name, priority, mutexes_held)` — *not* the same field
set.  Consequently `a == b` guarantees equal hash inputs only when the
corresponding tasks also agree on `mutexes_held`; with that extra
agreement the implication holds. -/
theorem C5_eq_imp_hash_with_mutex_agreement (a b : FreeRTOSSystemState)
    (h : FreeRTOSSystemState.rust_eq a b = true)
    (hm : a.mutex_proj = b.mutex_proj) :
    a.hash_stream = b.hash_stream := by
  simp only [FreeRTOSSystemState.rust_eq, Bool.and_eq_true, beq_iff_eq] at h
  simp only [FreeRTOSSystemState.mutex_proj, Prod.mk.injEq] at hm
  simp only [FreeRTOSSystemState.hash_stream, Prod.mk.injEq]
  refine ⟨tcb_eq_and_mutex_imp_hash _ _ h.1.1.1 hm.1, ?_, ?_, h.2⟩
  · exact tcb_list_eq_and_mutex_imp_hash _ _ h.1.1.2 hm.2.1
  · exact tcb_list_eq_and_mutex_imp_hash _ _ h.1.2 hm.2.2

/-- Witness for C5 amended at concrete equal states. -/
theorem C5_eq_imp_hash_with_mutex_agreement_witness :
    FreeRTOSSystemState.hash_stream c5_state_a = FreeRTOSSystemState.hash_stream c5_state_a :=
  C5_eq_imp_hash_with_mutex_agreement c5_state_a c5_state_a (by decide) (by decide)

/-! ## C9 — decoding `isr_0_times = [100, 150]` -/

/-- The raw `isr_0_times` part encoding the little-endian `u32` values
100 and 150. -/
def c9_bytes : List Nat := interrupt_times_to_input_bytes [100, 150]

/-- C9 counterexample: with min-iat 1000 µs (tick threshold
`(1000 as f32 * 31.25) as u32 = 31250`), decoding the part that encodes
`[100, 150]` does **not** yield `[0, 100]`: both raw values lie below
`FIRST_INT = 200000`, so both are coerced to 0 and the decode yields
`[0, 0]`. -/
theorem C9_decode_counterexample :
    input_bytes_to_interrupt_times c9_bytes 31250 ≠ [0, 100] ∧
      input_bytes_to_interrupt_times c9_bytes 31250 = [0, 0] := by
  decide

/-- C9 amended: decoding the raw `isr_0_times` input encoding
`[100, 150]` yields `[0, 0]` for *every* min-iat threshold: both ticks
are below `FIRST_INT` and are coerced to 0 (and the min-iat filter skips
zero entries). -/
theorem C9_decode_both_coerced_to_zero (t : Nat) :
    input_bytes_to_interrupt_times c9_bytes t = [0, 0] := by
  rfl

/-! ## C7 — privilege levels across an API/ISR capture sequence -/

/-- A refined state whose current task is `"T"`. -/
def c7_state : FreeRTOSSystemState := ⟨⟨"T", 1, 1, 0, 0, 0⟩, [], [], false⟩

/-- Capture contexts bounding the claimed sequence on either side: an
initial `ISREnd` (the canonical trace start at the context-switch
handler), then `APIStart(foo)`, `ISRStart(tick)`, `ISREnd(tick)`,
`APIEnd(foo)`, and a final `End` capture. -/
def c7_meta (t0 t1 t2 t3 t4 t5 : Nat) : List FreeRTOSSystemStateContext :=
  [ ⟨t0, (CaptureEvent.ISREnd, "xPortPendSVHandler"), (1, 2), []⟩,
    ⟨t1, (CaptureEvent.APIStart, "foo"), (3, 4), []⟩,
    ⟨t2, (CaptureEvent.ISRStart, "tick"), (5, 6), []⟩,
    ⟨t3, (CaptureEvent.ISREnd, "tick"), (7, 8), []⟩,
    ⟨t4, (CaptureEvent.APIEnd, "foo"), (9, 10), []⟩,
    ⟨t5, (CaptureEvent.End, ""), (11, 12), []⟩ ]

/-- C7 counterexample: on the bounded capture sequence
`APIStart(foo) → ISRStart(tick) → ISREnd(tick) → APIEnd(foo)` the four
intervals that start at these captures get the levels `[1, 2, 1, 0]`,
not `[1, 2, 2, 1]`: the interval beginning at the `ISREnd` resumes the
task's API level 1 (the API call is still open) and the interval
beginning at the `APIEnd` runs at app level 0. -/
theorem C7_levels_counterexample :
    (((states2intervals_core (fun _ => 0) (List.replicate 6 c7_state)
          (c7_meta 10 20 30 40 50 60)).1.map (fun i => i.level)).drop 1 = [1, 2, 1, 0]) ∧
      ¬ (((states2intervals_core (fun _ => 0) (List.replicate 6 c7_state)
          (c7_meta 10 20 30 40 50 60)).1.map (fun i => i.level)).drop 1 = [1, 2, 2, 1]) := by
  decide

/-- C7 amended: for every tick assignment, the refiner turns the
bounded capture sequence into five intervals with levels
`[0, 1, 2, 1, 0]` — in particular the four intervals starting at
`APIStart`, `ISRStart`, `ISREnd`, `APIEnd` have levels `[1, 2, 1, 0]`. -/
theorem C7_levels_of_api_isr_sequence (t0 t1 t2 t3 t4 t5 : Nat) :
    ((states2intervals_core (fun _ => 0) (List.replicate 6 c7_state)
        (c7_meta t0 t1 t2 t3 t4 t5)).1.map (fun i => i.level)) = [0, 1, 2, 1, 0] := by
  rfl

/-! ## C8 — responses without a pending release -/

/-- C8 counterexample: task `"T"` is released at tick 0 and responds at
tick 100; a second response arrives at tick 1000100 with no pending
release, 32000 µs after the recorded last response — far beyond the
claimed 500 µs window.  The claim demands that this response be dropped
and `need_to_debug` be raised; the source instead emits the pair
`(100, 1000100, "T")` and leaves the flag clear. -/
theorem C8_no_pending_release_counterexample :
    get_release_response_pairs [(0, "T")] [(100, "T"), (1000100, "T")] =
        ([(0, 100, "T"), (100, 1000100, "T")], false) ∧
      500 < Nat.dist (tick_to_time_us 1000100) (tick_to_time_us 100) := by
  decide

/-- C8 amended: whenever a response `(dt, dn)` arrives for a task with
no pending release, then — regardless of any distance window — if a
last-response tick exists for that task the pair
`(last-response, response)` is emitted and the error flag is left
unchanged (the 1000 µs check in this branch has an empty body);
only when no last-response exists is the flag raised and the response
dropped. -/
theorem C8_no_pending_release_behavior (ready last_response : List (String × Nat))
    (ret : List (Nat × Nat × String)) (err : Bool) (dt : Nat) (dn : String)
    (h : alist_contains ready dn = false) :
    (∀ lr, alist_get? last_response dn = some lr →
      pair_consume ready last_response ret err dt dn =
        (ready, alist_insert last_response dn dt, ret ++ [(lr, dt, dn)], err)) ∧
    (alist_get? last_response dn = none →
      pair_consume ready last_response ret err dt dn =
        (ready, last_response, ret, true)) := by
  constructor
  · intro lr hlr
    simp [pair_consume, h, hlr]
  · intro hlr
    simp [pair_consume, h, hlr]

/-- Witness for C8's amended claim at a concrete state. -/
theorem C8_no_pending_release_behavior_witness :
    pair_consume [] [("T", 100)] [] false 200 "T" =
      ([], alist_insert [("T", 100)] "T" 200, [] ++ [(100, 200, "T")], false) :=
  (C8_no_pending_release_behavior [] [("T", 100)] [] false 200 "T" (by decide)).1 100
    (by decide)

/-! ## C4 — worst-case preservation under pruning -/

/-- A corpus of 201 testcases on which the pruning pass removes the
worst one: ids 0..99 carry `IsFavoredMetadata` (their stale favored
marks keep them exempt), ids 100..199 have small exec times, and id 200
holds the global worst exec time of 10 ms. -/
def c4_corpus : List Testcase :=
  (List.range 201).map (fun i =>
    { id := i, exec_time := some (if i = 200 then 10000000 else 1000),
      favored := decide (i < 100) })

set_option maxRecDepth 100000 in
/-- C4: the source's comment says "Keep the worst observed under all
circumstances", but the preserving branch *returns* the worst testcase
as a removal candidate instead of exempting it (`Some` instead of
`None` in the `filter_map`).  On `c4_corpus` (with an empty top-rated
value list, no current testcase, and `wort = 10 ms`), the pass removes
all 101 candidates — including testcase 200, the unique holder of the
global worst exec time. -/
theorem C4_worst_case_removed_by_prune :
    c4_corpus.any (fun tc => tc.id == 200 && tc.exec_time == some 10000000) = true ∧
      (prune_pass 10000000 none [] c4_corpus).all (fun tc => tc.id != 200) = true := by
  decide

/-! ## C3 — STG edge worst weights never decrease -/

/-- The `worst` record of the edge at index `i` (the default triple has
no record, so out-of-range indices read as `none`). -/
def edgeWorstAt (g : DiGraph) (i : Nat) : Option (Nat × List (Nat × Nat)) :=
  ((g.edges.getD i default).2.2).worst

/-- Monotone evolution of one `worst` record: an existing record's
ticks never decrease, and the record changes only for strictly larger
ticks. -/
def WorstMono (o o' : Option (Nat × List (Nat × Nat))) : Prop :=
  ∀ w b, o = some (w, b) →
    ∃ w' b', o' = some (w', b') ∧ w ≤ w' ∧ ((w', b') ≠ (w, b) → w < w')

/-- Monotone evolution of every edge's `worst` record. -/
def EdgeMono (g g' : DiGraph) : Prop :=
  ∀ i, WorstMono (edgeWorstAt g i) (edgeWorstAt g' i)

theorem worst_mono_refl (o : Option (Nat × List (Nat × Nat))) : WorstMono o o :=
  fun w b h => ⟨w, b, h, Nat.le_refl w, fun hne => absurd rfl hne⟩

theorem worst_mono_update (o : Option (Nat × List (Nat × Nat))) (time : Nat)
    (accesses : List (Nat × Nat)) : WorstMono o (update_worst o time accesses) := by
  intro w b h
  subst h
  simp only [update_worst]
  by_cases hlt : w < time
  · rw [if_pos hlt]
    exact ⟨time, accesses, rfl, Nat.le_of_lt hlt, fun _ => hlt⟩
  · rw [if_neg hlt]
    exact ⟨w, b, rfl, Nat.le_refl w, fun hne => absurd rfl hne⟩

theorem edge_mono_refl (g : DiGraph) : EdgeMono g g :=
  fun _ => worst_mono_refl _

theorem edge_mono_trans {g₁ g₂ g₃ : DiGraph} (h₁ : EdgeMono g₁ g₂) (h₂ : EdgeMono g₂ g₃) :
    EdgeMono g₁ g₃ := by
  intro i w b hw
  obtain ⟨w', b', hw', hle, hstrict⟩ := h₁ i w b hw
  obtain ⟨w'', b'', hw'', hle', hstrict'⟩ := h₂ i w' b' hw'
  refine ⟨w'', b'', hw'', Nat.le_trans hle hle', fun hne => ?_⟩
  by_cases heq : (w', b') = (w, b)
  · have hww : w' = w := by rw [Prod.mk.injEq] at heq; exact heq.1
    have hbb : b' = b := by rw [Prod.mk.injEq] at heq; exact heq.2
    subst hww; subst hbb
    exact hstrict' hne
  · exact Nat.lt_of_lt_of_le (hstrict heq) hle'

/-- A `some` record can only sit at an in-range index. -/
theorem edgeWorstAt_lt_length {g : DiGraph} {i : Nat} {w : Nat} {b : List (Nat × Nat)}
    (h : edgeWorstAt g i = some (w, b)) : i < g.edges.length := by
  by_contra hge
  rw [edgeWorstAt, List.getD_eq_default _ _ (by omega)] at h
  exact Option.noConfusion h

/-- Appending edges (and arbitrary node changes) is edge-monotone. -/
theorem edge_mono_of_append {g g' : DiGraph} (l : List (Nat × Nat × STGEdge))
    (h : g'.edges = g.edges ++ l) : EdgeMono g g' := by
  intro i w b hw
  have hi := edgeWorstAt_lt_length hw
  refine ⟨w, b, ?_, Nat.le_refl w, fun hne => absurd rfl hne⟩
  rw [edgeWorstAt] at hw
  rw [edgeWorstAt, h, List.getD_append _ _ _ _ hi]
  exact hw

/-- Keeping the edge list is trivially edge-monotone. -/
theorem edge_mono_of_eq {g g' : DiGraph} (h : g'.edges = g.edges) : EdgeMono g g' := by
  intro i
  rw [edgeWorstAt, edgeWorstAt, h]
  exact worst_mono_refl _

theorem getD_modify_idx {α : Type} (f : α → α) (d : α) :
    ∀ (l : List α) (n i : Nat),
      (modify_idx f n l).getD i d =
        if i = n ∧ i < l.length then f (l.getD i d) else l.getD i d
  | [], n, i => by simp [modify_idx]
  | a :: l, 0, 0 => by simp [modify_idx]
  | a :: l, 0, i + 1 => by
    simp only [modify_idx, List.getD_cons_succ, List.length_cons]
    rw [if_neg (by omega)]
  | a :: l, n + 1, 0 => by
    simp only [modify_idx, List.getD_cons_zero, List.length_cons]
    rw [if_neg (by omega)]
  | a :: l, n + 1, i + 1 => by
    simp only [modify_idx, List.getD_cons_succ, List.length_cons]
    rw [getD_modify_idx f d l n i]
    have hiff : (i + 1 = n + 1 ∧ i + 1 < l.length + 1) ↔ (i = n ∧ i < l.length) := by omega
    rw [if_congr hiff rfl rfl]

/-- The in-place worst update of one edge is edge-monotone. -/
theorem edge_mono_of_modify {g g' : DiGraph} (ei time : Nat) (accesses : List (Nat × Nat))
    (h : g'.edges = modify_idx
      (fun e => (e.1, e.2.1, { e.2.2 with worst := update_worst e.2.2.worst time accesses }))
      ei g.edges) : EdgeMono g g' := by
  intro i
  rw [edgeWorstAt, edgeWorstAt, h, getD_modify_idx]
  by_cases hc : i = ei ∧ i < g.edges.length
  · rw [if_pos hc]
    exact worst_mono_update _ time accesses
  · rw [if_neg hc]
    exact worst_mono_refl _

/-- The node phase never touches the edge arena. -/
theorem stg_node_phase_edges (hash_state : FreeRTOSSystemState → Nat)
    (hash_node : STGNode → Nat) (hash_abb : AtomicBasicBlock → Nat)
    (table : List (Nat × FreeRTOSSystemState)) (acc : WalkAcc) (interval : ExecInterval) :
    ((stg_node_phase hash_state hash_node hash_abb table acc interval).2.1).graph.edges =
      acc.fbs.graph.edges := by
  simp only [stg_node_phase]
  rcases h : alist_get? acc.fbs.stgnode_index
      (hash_node
        { state := hash_state ((alist_get? table interval.start_state).getD default),
          abb := interval.abb.getD default }) with _ | idx <;>
    simp only [h]

/-- The edge phase is edge-monotone with respect to the node phase's
feedback state. -/
theorem stg_edge_phase_mono (instance_time : List (Nat × Nat × List (Nat × Nat)))
    (acc : WalkAcc) (interval : ExecInterval) (np : Nat × STGFeedbackState × Bool × Bool) :
    EdgeMono (np.2.1).graph (stg_edge_phase instance_time acc interval np).fbs.graph := by
  obtain ⟨next_idx, fbs, interesting, updated⟩ := np
  simp only [stg_edge_phase]
  rcases hfind : find_outgoing_edge fbs.graph ((acc.node_trace.getLastD (0, 0))).1 next_idx
    with _ | ei
  · simp only [hfind]
    exact edge_mono_of_append _ rfl
  · simp only [hfind]
    rcases hinst : alist_get? instance_time (abb_instance_key interval) with _ | ⟨time, accesses⟩
    · simp only [hinst]
      exact edge_mono_of_eq rfl
    · simp only [hinst]
      exact edge_mono_of_modify ei time accesses rfl

/-- One walk step is edge-monotone: the node phase leaves the edge
arena untouched, and the edge phase either improves one record through
`update_worst` or appends a fresh edge. -/
theorem stg_walk_step_mono (hash_state : FreeRTOSSystemState → Nat)
    (hash_node : STGNode → Nat) (hash_abb : AtomicBasicBlock → Nat)
    (table : List (Nat × FreeRTOSSystemState))
    (instance_time : List (Nat × Nat × List (Nat × Nat))) (acc : WalkAcc)
    (interval : ExecInterval) :
    EdgeMono acc.fbs.graph
      (stg_walk_step hash_state hash_node hash_abb table instance_time acc interval).fbs.graph := by
  unfold stg_walk_step
  exact edge_mono_trans
    (edge_mono_of_eq (stg_node_phase_edges hash_state hash_node hash_abb table acc interval))
    (stg_edge_phase_mono instance_time acc interval _)

/-- The walk over a whole trace is edge-monotone. -/
theorem stg_walk_foldl_mono (hash_state : FreeRTOSSystemState → Nat)
    (hash_node : STGNode → Nat) (hash_abb : AtomicBasicBlock → Nat)
    (table : List (Nat × FreeRTOSSystemState))
    (instance_time : List (Nat × Nat × List (Nat × Nat))) :
    ∀ (trace : List ExecInterval) (acc : WalkAcc),
      EdgeMono acc.fbs.graph
        (trace.foldl (stg_walk_step hash_state hash_node hash_abb table instance_time)
          acc).fbs.graph
  | [], _ => edge_mono_refl _
  | iv :: rest, acc =>
    edge_mono_trans
      (stg_walk_step_mono hash_state hash_node hash_abb table instance_time acc iv)
      (stg_walk_foldl_mono hash_state hash_node hash_abb table instance_time rest _)

/-- The closing step is edge-monotone. -/
theorem stg_walk_finish_mono (instance_time : List (Nat × Nat × List (Nat × Nat)))
    (last_interval : ExecInterval) (acc : WalkAcc) :
    EdgeMono acc.fbs.graph (stg_walk_finish instance_time last_interval acc).fbs.graph := by
  simp only [stg_walk_finish]
  rcases hex : acc.fbs.graph.edges.any
      (fun e => e.1 == (acc.node_trace.getLastD (0, 0)).1 && e.2.1 == acc.fbs.exitpoint)
    with _ | _
  · simp only [hex, Bool.false_eq_true, if_false]
    exact edge_mono_of_append _ rfl
  · simp only [hex, if_true]
    exact edge_mono_of_eq rfl

/-- C3: for every STG update of a trace, an edge that already carried a
worst record `(w, b)` still carries a record afterwards, its ticks `w'`
satisfy `w ≤ w'`, and the record was replaced only when the new
observed ABB-instance time was strictly greater than `w`.  This holds
for every trace, read trace, state table, feedback state, and every
choice of the hash functions. -/
theorem C3_stg_edge_worst_monotone (hash_state : FreeRTOSSystemState → Nat)
    (hash_node : STGNode → Nat) (hash_abb : AtomicBasicBlock → Nat)
    (trace : List ExecInterval) (read_trace : List (List (Nat × Nat)))
    (table : List (Nat × FreeRTOSSystemState)) (fbs : STGFeedbackState)
    (i w : Nat) (b : List (Nat × Nat))
    (hw : edgeWorstAt fbs.graph i = some (w, b)) :
    ∃ w' b',
      edgeWorstAt
          (update_stg_interval hash_state hash_node hash_abb trace read_trace table
            fbs).fbs.graph i = some (w', b') ∧
        w ≤ w' ∧ ((w', b') ≠ (w, b) → w < w') := by
  have hmono : EdgeMono fbs.graph
      (update_stg_interval hash_state hash_node hash_abb trace read_trace table
        fbs).fbs.graph := by
    unfold update_stg_interval
    cases trace with
    | nil => exact edge_mono_refl _
    | cons a rest =>
      exact edge_mono_trans
        (stg_walk_foldl_mono hash_state hash_node hash_abb table
          (execinterval_to_abb_instances ((a :: rest).zip read_trace) []) (a :: rest)
          { fbs := fbs, node_trace := [(fbs.entrypoint, 0)], edge_trace := [],
            interesting := false, updated := false })
        (stg_walk_finish_mono _ _ _)
  exact hmono i w b hw

/-- A concrete feedback state for the C3 witness: two nodes, one edge
`0 → 1` carrying the worst record `(5, [])`. -/
def c3_abb : AtomicBasicBlock := ⟨0x100, [0x200], 1, 3, some "T"⟩

/-- A concrete interval revisiting the known edge with execution time 9. -/
def c3_interval : ExecInterval :=
  ⟨11, 20, 99, 99, (CaptureEvent.APIStart, "foo"), (CaptureEvent.APIEnd, "foo"), 1,
    some c3_abb⟩

/-- The concrete feedback state for the C3 witness. -/
def c3_fbs : STGFeedbackState :=
  { graph := { nodes := [⟨1, default⟩, ⟨7, c3_abb⟩],
               edges := [(0, 1, ⟨CaptureEvent.APIStart, "foo", some (5, [])⟩)] },
    systemstate_index := [], state_abb_hash_index := [], stgnode_index := [(7, 1)],
    entrypoint := 0, exitpoint := 5 }

/-- Witness for C3: on the concrete instance the walk revisits edge 0
(whose record was `(5, [])`) with instance time 9 and upgrades it
monotonically. -/
theorem C3_stg_edge_worst_monotone_witness :
    ∃ w' b',
      edgeWorstAt
          (update_stg_interval (fun _ => 7) (fun n => n.state) (fun _ => 0) [c3_interval]
            [[]] [] c3_fbs).fbs.graph 0 = some (w', b') ∧
        5 ≤ w' ∧ ((w', b') ≠ (5, ([] : List (Nat × Nat))) → 5 < w') :=
  C3_stg_edge_worst_monotone (fun _ => 7) (fun n => n.state) (fun _ => 0) [c3_interval]
    [[]] [] c3_fbs 0 5 [] (by decide)

end FRET
